import Mathlib

/-!
Verification of the retrieval-augmented-generation core of the Swiss RAG
demo application (src/app.py): document chunking, embedding, similarity
retrieval, batch embedding, document ingestion and query orchestration.

Modelling conventions:
* Python strings are `List Char`; `str.strip()` is `strip` below.
* Machine floats are idealised as real numbers; similarity scores, which
  are only compared and never otherwise inspected by the retrieval code,
  are modelled as rationals so that the sort is executable.
* External collaborators (HTTP fetch, PDF parser, embedding provider,
  language model) are oracle parameters: a call result is an argument.
* Fallible code returns `Option`.
-/

namespace SwissRAG

/-- Whitespace stripping from both ends, modelling the Python method
`str.strip()` (leading and trailing whitespace removed). -/
def strip (s : List Char) : List Char :=
  ((s.dropWhile Char.isWhitespace).reverse.dropWhile Char.isWhitespace).reverse

/-- Model of a numpy value that is either a single vector or a
two-dimensional array (stack of rows). -/
inductive NDVec : Type
  | one (v : List ℝ)
  | two (m : List (List ℝ))

/-- A document chunk with metadata, from the `Chunk` dataclass:
`text`, `source_label`, `page_number`, `chunk_index`, optional
`embedding` (defaulting to `None`). -/
structure Chunk where
  text : List Char
  source_label : String
  page_number : ℕ
  chunk_index : ℕ
  embedding : Option NDVec := none

-- Chunking parameters from app.py.
def CHARS_PER_TOKEN : ℕ := 4
def CHUNK_SIZE_TOKENS : ℕ := 400
def OVERLAP_TOKENS : ℕ := 100
def CHUNK_SIZE_CHARS : ℕ := CHUNK_SIZE_TOKENS * CHARS_PER_TOKEN
def OVERLAP_CHARS : ℕ := OVERLAP_TOKENS * CHARS_PER_TOKEN

-- Retrieval parameter from app.py.
def TOP_K : ℕ := 4

/-- The while-loop of `DocumentProcessor.chunk_text`, generalised over the
window size `W` and overlap `O` (in the source these are the constants
`CHUNK_SIZE_CHARS` and `OVERLAP_CHARS`; the spec lists them as tunables).
`fuel` bounds the number of iterations; `none` means the fuel ran out with
the loop still running, so non-termination of the Python loop shows up as
`none` for every fuel value.  Each iteration takes the slice
`text[start:start + W]`, emits it (stripped) if its stripped form is
non-empty, advances `start` by `W - O`, and stops when the new start
reaches the text length.  The subtraction `W - O` is natural-number
subtraction, which agrees with the Python integer subtraction whenever
`O ≤ W` (the only configurations used below). -/
def chunkLoop (W O : ℕ) (text : List Char) (pageNum : ℕ) (label : String) :
    ℕ → ℕ → ℕ → Option (List Chunk)
  | 0, _, _ => none
  | fuel + 1, start, idx =>
    if start < text.length then
      let ct := strip ((text.drop start).take W)
      let idx2 := if ct = [] then idx else idx + 1
      let next := start + (W - O)
      let rest :=
        if text.length ≤ next then some []
        else chunkLoop W O text pageNum label fuel next idx2
      rest.map (fun r =>
        if ct = [] then r
        else { text := ct, source_label := label, page_number := pageNum,
               chunk_index := idx, embedding := none } :: r)
    else some []

/-- `DocumentProcessor.chunk_text(text, page_num, label, start_chunk_index)`
with the configured constants.  The fuel `text.length + 1` is always
sufficient for the configured stride (see `chunkLoop_isSome`), so the
`getD []` default is never taken. -/
def chunk_text (text : List Char) (pageNum : ℕ) (label : String)
    (startChunkIndex : ℕ) : List Chunk :=
  (chunkLoop CHUNK_SIZE_CHARS OVERLAP_CHARS text pageNum label
    (text.length + 1) 0 startChunkIndex).getD []

/-- With the configured stride `CHUNK_SIZE_CHARS - OVERLAP_CHARS = 1200`,
the loop terminates within the provided fuel whenever
`text.length ≤ start + 1200 * fuel` and the fuel is positive. -/
theorem chunkLoop_isSome (text : List Char) (pageNum : ℕ) (label : String) :
    ∀ (fuel start idx : ℕ), 0 < fuel → text.length ≤ start + 1200 * fuel →
      chunkLoop 1600 400 text pageNum label fuel start idx ≠ none := by
  intro fuel
  induction fuel with
  | zero => intro start idx h; omega
  | succ f ih =>
    intro start idx _ hlen
    rw [chunkLoop]
    by_cases hs : start < text.length
    · simp only [hs, if_true]
      have h1600 : (1600 : ℕ) - 400 = 1200 := by norm_num
      by_cases hnext : text.length ≤ start + (1600 - 400)
      · simp [hnext]
      · simp only [hnext, if_false]
        have hf : 0 < f := by omega
        have : text.length ≤ (start + (1600 - 400)) + 1200 * f := by omega
        have := ih (start + (1600 - 400))
          (if strip ((text.drop start).take 1600) = [] then idx else idx + 1)
          hf this
        intro hcontra
        rw [Option.map_eq_none'] at hcontra
        exact this hcontra
    · simp [hs]

theorem chunk_text_eq_chunkLoop (text : List Char) (pageNum : ℕ)
    (label : String) (startChunkIndex : ℕ) :
    chunkLoop 1600 400 text pageNum label (text.length + 1) 0 startChunkIndex
      = some (chunk_text text pageNum label startChunkIndex) := by
  have h := chunkLoop_isSome text pageNum label (text.length + 1) 0
    startChunkIndex (by omega) (by omega)
  have hWO : CHUNK_SIZE_CHARS = 1600 ∧ OVERLAP_CHARS = 400 := by
    constructor <;> norm_num [CHUNK_SIZE_CHARS, OVERLAP_CHARS,
      CHUNK_SIZE_TOKENS, OVERLAP_TOKENS, CHARS_PER_TOKEN]
  rw [chunk_text, hWO.1, hWO.2]
  cases hres : chunkLoop 1600 400 text pageNum label (text.length + 1) 0
      startChunkIndex with
  | none => exact absurd hres h
  | some r => simp [hres]

/-- C1 (amended): for every text of length at most the stride
`CHUNK_SIZE_CHARS - OVERLAP_CHARS = 1200`, `chunk_text` returns exactly one
chunk whose text is the whitespace-stripped input when that is non-empty,
and no chunks when the input strips to empty.  (The bound in the original
claim, the window size 1600, is wrong: texts of length 1201..1599 yield a
second, overlap-only chunk, see the counterexample.) -/
theorem chunk_text_short (text : List Char) (pageNum : ℕ) (label : String)
    (startChunkIndex : ℕ) (h : text.length ≤ 1200) :
    chunk_text text pageNum label startChunkIndex
      = if strip text = [] then []
        else [{ text := strip text, source_label := label,
                page_number := pageNum, chunk_index := startChunkIndex,
                embedding := none }] := by
  cases text with
  | nil => rfl
  | cons x xs =>
    have heq := chunk_text_eq_chunkLoop (x :: xs) pageNum label startChunkIndex
    rw [chunkLoop] at heq
    have hlt : 0 < (x :: xs).length := by simp
    have htake : (x :: xs).take 1600 = x :: xs :=
      List.take_of_length_le (by omega)
    have hnext : (x :: xs).length ≤ 0 + (1600 - 400) := by omega
    simp only [hlt, if_true, List.drop_zero, htake, hnext,
      Option.map_some'] at heq
    by_cases hstrip : strip (x :: xs) = []
    · simp only [hstrip, if_true] at heq ⊢
      injection heq with h2; exact h2.symm
    · simp only [hstrip, if_false] at heq ⊢
      injection heq with h2; exact h2.symm

/-- Witness for C1 (amended) at the one-character text `['a']`. -/
theorem chunk_text_short_witness :
    ([('a' : Char)].length ≤ 1200) ∧
      chunk_text [('a' : Char)] 1 "L" 0
        = if strip [('a' : Char)] = [] then []
          else [{ text := strip [('a' : Char)], source_label := "L",
                  page_number := 1, chunk_index := 0, embedding := none }] :=
  ⟨by decide, chunk_text_short [('a' : Char)] 1 "L" 0 (by decide)⟩

/-- Counterexample to C1 as stated: the text of 1201 identical letters is
strictly shorter than the window size 1600, yet `chunk_text` returns two
chunks (the second is the pure-overlap tail slice starting at 1200), not
exactly one. -/
theorem chunk_text_short_counterexample :
    (List.replicate 1201 'a').length < 1600 ∧
      (chunk_text (List.replicate 1201 'a') 1 "L" 0).length = 2 := by
  have hw : Char.isWhitespace 'a' = false := by decide
  have hdw : ∀ m : ℕ,
      (List.replicate m 'a').dropWhile Char.isWhitespace
        = List.replicate m 'a' := by
    intro m
    cases m with
    | zero => rfl
    | succ k =>
      rw [List.replicate_succ, List.dropWhile_cons, hw]
      simp
  have hstrip : ∀ m : ℕ,
      strip (List.replicate m 'a') = List.replicate m 'a' := by
    intro m
    simp [strip, hdw, List.reverse_replicate]
  have heq := chunk_text_eq_chunkLoop (List.replicate 1201 'a') 1 "L" 0
  rw [List.length_replicate] at heq
  rw [show (1201 : ℕ) + 1 = 1200 + 1 + 1 from rfl] at heq
  rw [chunkLoop] at heq
  have hlen : (List.replicate 1201 'a').length = 1201 :=
    List.length_replicate 1201 'a'
  have hlt : 0 < (List.replicate 1201 'a').length := by rw [hlen]; omega
  have hnext : ¬ ((List.replicate 1201 'a').length ≤ 0 + (1600 - 400)) := by
    rw [hlen]; omega
  have hrepne : List.replicate 1201 'a' ≠ [] := by
    rw [show (1201 : ℕ) = 1200 + 1 from rfl, List.replicate_succ]
    exact List.cons_ne_nil _ _
  have htake1 : ((List.replicate 1201 'a').drop 0).take 1600
      = List.replicate 1201 'a' := by
    rw [List.drop_zero]
    exact List.take_of_length_le (by rw [hlen]; omega)
  have hs1 : strip (((List.replicate 1201 'a').drop 0).take 1600) ≠ [] := by
    rw [htake1, hstrip]
    exact hrepne
  simp only [hlt, if_true, hnext, if_false, hs1, htake1] at heq
  rw [chunkLoop] at heq
  have hlt2 : 0 + (1600 - 400) < (List.replicate 1201 'a').length := by
    rw [hlen]; omega
  have hdrop2 : (List.replicate 1201 'a').drop (0 + (1600 - 400))
      = List.replicate 1 'a' := by
    rw [List.drop_replicate]
  have htake2 : (List.replicate 1 'a').take 1600 = List.replicate 1 'a' := by
    exact List.take_of_length_le (by simp)
  have hs2 : strip (((List.replicate 1201 'a').drop (0 + (1600 - 400))).take
      1600) ≠ [] := by
    rw [hdrop2, htake2, hstrip]
    exact List.cons_ne_nil _ _
  have hnext2 : (List.replicate 1201 'a').length
      ≤ 0 + (1600 - 400) + (1600 - 400) := by
    rw [hlen]; omega
  simp only [hlt2, if_true, hnext2, hs2, if_false, Option.map_some'] at heq
  have hne : strip (List.replicate 1201 'a') ≠ [] := by
    rw [hstrip]; exact hrepne
  rw [if_neg hne] at heq
  injection heq with h2
  refine ⟨by rw [hlen]; omega, ?_⟩
  rw [← h2]
  rfl

/-- C2: with overlap configured equal to the window size (stride
`W - O = 0`), the chunking loop never terminates on any non-empty text:
the start position never advances and the guard commented
`# Avoid infinite loop` never fires, so every fuel bound is exhausted.
This contradicts the specified forced forward progress. -/
theorem chunkLoop_stride_zero_diverges :
    ∀ (fuel idx : ℕ),
      chunkLoop 1600 1600 [('a' : Char)] 1 "L" fuel 0 idx = none := by
  intro fuel
  induction fuel with
  | zero => intro idx; rfl
  | succ f ih =>
    intro idx
    rw [chunkLoop]
    have hlt : 0 < ([('a' : Char)] : List Char).length := by simp
    simp only [hlt, if_true]
    have hstrip : strip (([('a' : Char)] : List Char).drop 0 |>.take 1600)
        ≠ [] := by decide
    have hnext : ¬ (([('a' : Char)] : List Char).length ≤ 0 + (1600 - 1600)) := by
      simp
    simp only [hnext, if_false, List.drop_zero, Nat.zero_add]
    rw [ih]
    rfl

/-- Insertion of a scored element into a list sorted by descending score,
placing it before the first element whose score it reaches.  An element is
inserted after every earlier element of equal score, which makes the
resulting sort stable. -/
def insertDesc {α : Type} (x : α × ℚ) : List (α × ℚ) → List (α × ℚ)
  | [] => [x]
  | y :: ys => if y.2 ≤ x.2 then x :: y :: ys else y :: insertDesc x ys

/-- The stable descending sort by score, modelling the Python call
`similarities.sort(key=lambda x: x[1], reverse=True)` (Python sorts are
guaranteed stable). -/
def sortDesc {α : Type} : List (α × ℚ) → List (α × ℚ)
  | [] => []
  | x :: xs => insertDesc x (sortDesc xs)

theorem length_insertDesc {α : Type} (x : α × ℚ) (l : List (α × ℚ)) :
    (insertDesc x l).length = l.length + 1 := by
  induction l with
  | nil => rfl
  | cons y ys ih =>
    rw [insertDesc]
    by_cases h : y.2 ≤ x.2
    · rw [if_pos h]; rfl
    · rw [if_neg h]; simp [ih]

theorem length_sortDesc {α : Type} (l : List (α × ℚ)) :
    (sortDesc l).length = l.length := by
  induction l with
  | nil => rfl
  | cons x xs ih => rw [sortDesc, length_insertDesc, ih]; rfl

theorem mem_insertDesc {α : Type} (x z : α × ℚ) (l : List (α × ℚ)) :
    z ∈ insertDesc x l ↔ z = x ∨ z ∈ l := by
  induction l with
  | nil => simp [insertDesc]
  | cons y ys ih =>
    rw [insertDesc]
    by_cases h : y.2 ≤ x.2
    · rw [if_pos h]; exact List.mem_cons
    · rw [if_neg h]; simp [List.mem_cons, ih]; tauto

theorem pairwise_insertDesc {α : Type} (x : α × ℚ) (l : List (α × ℚ))
    (hl : l.Pairwise (fun a b => b.2 ≤ a.2)) :
    (insertDesc x l).Pairwise (fun a b => b.2 ≤ a.2) := by
  induction l with
  | nil => simp [insertDesc]
  | cons y ys ih =>
    rw [insertDesc]
    rw [List.pairwise_cons] at hl
    by_cases h : y.2 ≤ x.2
    · rw [if_pos h]
      refine List.pairwise_cons.2 ⟨?_, List.pairwise_cons.2 hl⟩
      intro z hz
      rcases List.mem_cons.1 hz with hz | hz
      · rw [hz]; exact h
      · exact le_trans (hl.1 z hz) h
    · rw [if_neg h]
      refine List.pairwise_cons.2 ⟨?_, ih hl.2⟩
      intro z hz
      rcases (mem_insertDesc x z ys).1 hz with hz | hz
      · rw [hz]; exact le_of_lt (lt_of_not_le h)
      · exact hl.1 z hz

theorem pairwise_sortDesc {α : Type} (l : List (α × ℚ)) :
    (sortDesc l).Pairwise (fun a b => b.2 ≤ a.2) := by
  induction l with
  | nil => simp [sortDesc]
  | cons x xs ih => exact pairwise_insertDesc x (sortDesc xs) ih

theorem filter_insertDesc {α : Type} (v : ℚ) (x : α × ℚ) (l : List (α × ℚ)) :
    (insertDesc x l).filter (fun z => z.2 = v)
      = (x :: l).filter (fun z => z.2 = v) := by
  induction l with
  | nil => rfl
  | cons y ys ih =>
    rw [insertDesc]
    by_cases hxy : y.2 ≤ x.2
    · rw [if_pos hxy]
    · rw [if_neg hxy]
      by_cases hy : y.2 = v
      · have hx : ¬ (x.2 = v) := by
          intro hx
          exact hxy (by rw [hy, hx])
        simp [List.filter_cons, hy, hx, ih]
      · by_cases hx : x.2 = v
        · simp [List.filter_cons, hy, hx, ih]
        · simp [List.filter_cons, hy, hx, ih]

/-- Stability of `sortDesc`: the elements carrying any fixed score appear
in the sorted list exactly as they appear in the input list. -/
theorem filter_sortDesc {α : Type} (v : ℚ) (l : List (α × ℚ)) :
    (sortDesc l).filter (fun z => z.2 = v) = l.filter (fun z => z.2 = v) := by
  induction l with
  | nil => rfl
  | cons x xs ih =>
    rw [sortDesc, filter_insertDesc]
    simp only [List.filter_cons, ih]

/-- `RAGRetriever.retrieve(query, top_k)`: `index` is the stored chunk
sequence of the retriever (the constructor has already filtered out chunks
without an embedding), `queryEmbedding` is the result of the
`embed_text(query)` call, and `sim` is the external cosine-similarity
computation `1 - cosine(u, v)` applied to a pair of stored vectors. -/
def retrieve (index : List Chunk) (queryEmbedding : Option NDVec)
    (sim : NDVec → NDVec → ℚ) (topK : ℕ) : List (Chunk × ℚ) :=
  if index.length = 0 then []
  else
    match queryEmbedding with
    | none => []
    | some q =>
      let similarities :=
        index.map fun c => (c, sim q (c.embedding.getD (NDVec.one [])))
      (sortDesc similarities).take topK

/-- C3 (amended): when the query embedding succeeds, `retrieve` returns at
most `topK` results, sorted by descending similarity, and returns strictly
fewer than `topK` results only if the index holds fewer than `topK`
embedded chunks.  (The success proviso is the amendment: on a failed query
embedding the code returns no results regardless of the index size, see
the counterexample.) -/
theorem retrieve_topk (index : List Chunk) (q : NDVec)
    (sim : NDVec → NDVec → ℚ) (topK : ℕ) :
    (retrieve index (some q) sim topK).length ≤ topK ∧
      (retrieve index (some q) sim topK).Pairwise (fun a b => b.2 ≤ a.2) ∧
      ((retrieve index (some q) sim topK).length < topK →
        index.length < topK) := by
  by_cases hidx : index.length = 0
  · rw [retrieve, if_pos hidx]
    refine ⟨Nat.zero_le _, List.Pairwise.nil, ?_⟩
    intro hk
    rw [hidx]
    exact lt_of_le_of_lt (Nat.zero_le _) hk
  · rw [retrieve, if_neg hidx]
    simp only
    set sims := index.map
      (fun c => (c, sim q (c.embedding.getD (NDVec.one [])))) with hsims
    have hlen : ((sortDesc sims).take topK).length
        = min topK (sortDesc sims).length := List.length_take _ _
    have hslen : (sortDesc sims).length = index.length := by
      rw [length_sortDesc, hsims, List.length_map]
    refine ⟨?_, ?_, ?_⟩
    · rw [hlen]; exact min_le_left _ _
    · exact List.Pairwise.sublist (List.take_sublist topK (sortDesc sims))
        (pairwise_sortDesc sims)
    · intro hk
      rw [hlen, hslen] at hk
      rcases Nat.lt_or_ge index.length topK with h | h
      · exact h
      · rw [min_eq_left h] at hk
        exact absurd hk (lt_irrefl _)

/-- A concrete embedded chunk used to instantiate retrieval statements. -/
def exampleChunk : Chunk :=
  { text := ['a'], source_label := "L", page_number := 1,
    chunk_index := 0, embedding := some (NDVec.one [1]) }

/-- Counterexample to C3 as stated: when the query embedding fails
(`embed_text` returned `None`), `retrieve` returns strictly fewer than
`topK = 1` results although the index holds one embedded chunk, so "fewer
than k only if the index holds fewer than k" is violated. -/
theorem retrieve_topk_counterexample :
    (retrieve [exampleChunk] none (fun _ _ => 0) 1).length < 1 ∧
      ¬ (([exampleChunk] : List Chunk).length < 1) := by
  constructor
  · rw [retrieve.eq_def]
    norm_num
  · norm_num

/-- C6: the descending sort in `retrieve` is stable with respect to the
original chunk order: for every similarity value, the chunks returned with
that similarity, read in result order, form a subsequence of the stored
chunk sequence of the index. -/
theorem retrieve_stable (index : List Chunk) (queryEmbedding : Option NDVec)
    (sim : NDVec → NDVec → ℚ) (topK : ℕ) (v : ℚ) :
    (((retrieve index queryEmbedding sim topK).filter
        (fun z => z.2 = v)).map Prod.fst).Sublist index := by
  cases queryEmbedding with
  | none =>
    have h : retrieve index none sim topK = [] := by
      rw [retrieve.eq_def]
      by_cases hidx : index.length = 0 <;> simp [hidx]
    rw [h]
    simp
  | some q =>
    by_cases hidx : index.length = 0
    · have h : retrieve index (some q) sim topK = [] := by
        rw [retrieve.eq_def]
        simp [hidx]
      rw [h]
      simp
    · have h : retrieve index (some q) sim topK
          = (sortDesc (index.map
              fun c => (c, sim q (c.embedding.getD (NDVec.one []))))).take
              topK := by
        rw [retrieve.eq_def]
        simp [hidx]
      rw [h]
      set sims := index.map
        (fun c => (c, sim q (c.embedding.getD (NDVec.one [])))) with hsims
      have h1 : (((sortDesc sims).take topK).filter
          (fun z => z.2 = v)).Sublist ((sortDesc sims).filter
          (fun z => z.2 = v)) :=
        List.Sublist.filter _ (List.take_sublist topK (sortDesc sims))
      rw [filter_sortDesc] at h1
      have h2 : (sims.filter (fun z => z.2 = v)).Sublist sims :=
        List.filter_sublist sims
      have h3 : (((sortDesc sims).take topK).filter
          (fun z => z.2 = v)).Sublist sims := h1.trans h2
      have h4 := h3.map Prod.fst
      have hmap : sims.map Prod.fst = index := by
        rw [hsims, List.map_map]
        exact List.map_id index
      rw [hmap] at h4
      exact h4

/-- Sum of squares of the entries of a vector. -/
def sumSq (v : List ℝ) : ℝ := (v.map fun x => x * x).sum

/-- Euclidean norm, modelling `np.linalg.norm` (for a two-dimensional
array numpy computes the same formula over all entries, i.e. the norm of
the flattened array). -/
noncomputable def l2norm (v : List ℝ) : ℝ := Real.sqrt (sumSq v)

/-- The guard constant `1e-8` added to the norm before dividing. -/
noncomputable def EPS : ℝ := 1e-8

/-- The normalisation step `embedding / (np.linalg.norm(embedding) + 1e-8)`
applied to a one-dimensional array. -/
noncomputable def l2normalize (v : List ℝ) : List ℝ :=
  v.map fun x => x / (l2norm v + EPS)

/-- Element-wise arithmetic mean of a list of equal-length vectors,
modelling `np.mean(result, axis=0)` on a rectangular nested list. -/
noncomputable def npMean : List (List ℝ) → List ℝ
  | [] => []
  | w :: ws => (List.range w.length).map fun j =>
      (((w :: ws).map fun u => u.getD j 0).sum) / ((w :: ws).length : ℝ)

/-- The normalisation step applied entry-wise to a two-dimensional array:
numpy divides every entry by the Frobenius norm (plus the guard), which is
the Euclidean norm of the flattened array. -/
noncomputable def frobNormalize (m : List (List ℝ)) : List (List ℝ) :=
  m.map fun row => row.map fun x => x / (l2norm m.flatten + EPS)

/-- The value returned by the external embedding provider, as discriminated
by `EmbeddingEngine.embed_text`: a Python list of scalars, a Python list of
lists, or a numpy array (one- or two-dimensional), the documented return
type of the inference call. -/
inductive FEResult : Type
  | flat (v : List ℝ)
  | nested (vs : List (List ℝ))
  | arr1 (v : List ℝ)
  | arr2 (m : List (List ℝ))

/-- `EmbeddingEngine.embed_text` applied to the provider response.
The branches follow the source: for a list whose first element is a list,
`np.mean(result, axis=0)` pools the rows (raising on a ragged list, which
the surrounding `except` turns into `None`); for any other list,
`np.array(result)`; for a non-list (a numpy array), `np.array(result)`
keeps its shape.  Afterwards the value is divided by its norm plus `1e-8`.
An empty list makes `result[0]` raise `IndexError`, which the `except`
also turns into `None`. -/
noncomputable def embed_text : FEResult → Option NDVec
  | .flat [] => none
  | .flat (x :: xs) => some (.one (l2normalize (x :: xs)))
  | .nested [] => none
  | .nested (w :: ws) =>
      if (w :: ws).all (fun u => u.length = w.length)
      then some (.one (l2normalize (npMean (w :: ws))))
      else none
  | .arr1 v => some (.one (l2normalize v))
  | .arr2 m => some (.two (frobNormalize m))

/-- Euclidean (Frobenius) norm of a returned value. -/
noncomputable def ndNorm : NDVec → ℝ
  | .one v => l2norm v
  | .two m => l2norm m.flatten

/-- Norm of the raw (pooled, pre-normalisation) provider vector. -/
noncomputable def rawNorm : FEResult → ℝ
  | .flat v => l2norm v
  | .nested vs => l2norm (npMean vs)
  | .arr1 v => l2norm v
  | .arr2 m => l2norm m.flatten

theorem sumSq_nonneg (v : List ℝ) : 0 ≤ sumSq v := by
  apply List.sum_nonneg
  intro x hx
  rcases List.mem_map.1 hx with ⟨y, _, rfl⟩
  exact mul_self_nonneg y

theorem EPS_pos : 0 < EPS := by norm_num [EPS]

theorem sumSq_map_div (v : List ℝ) (c : ℝ) :
    sumSq (v.map fun x => x / c) = sumSq v * ((c ^ 2)⁻¹) := by
  unfold sumSq
  rw [List.map_map]
  have h : ((fun x => x * x) ∘ fun x : ℝ => x / c)
      = fun x : ℝ => (x * x) * ((c ^ 2)⁻¹) := by
    funext x
    simp only [Function.comp]
    rw [div_mul_div_comm, pow_two, div_eq_mul_inv]
  rw [h, List.sum_map_mul_right]

theorem l2norm_map_div (v : List ℝ) (c : ℝ) (hc : 0 < c) :
    l2norm (v.map fun x => x / c) = l2norm v / c := by
  unfold l2norm
  rw [sumSq_map_div, Real.sqrt_mul (sumSq_nonneg v), Real.sqrt_inv,
    Real.sqrt_sq hc.le, div_eq_mul_inv]

theorem l2norm_l2normalize (v : List ℝ) :
    l2norm (l2normalize v) = l2norm v / (l2norm v + EPS) := by
  have hc : 0 < l2norm v + EPS :=
    add_pos_of_nonneg_of_pos (Real.sqrt_nonneg _) EPS_pos
  unfold l2normalize
  exact l2norm_map_div v (l2norm v + EPS) hc

theorem normalized_close (v : List ℝ) (h : 1 - EPS ≤ l2norm v) :
    |l2norm (l2normalize v) - 1| ≤ EPS := by
  have hn : 0 ≤ l2norm v := Real.sqrt_nonneg _
  have hc : 0 < l2norm v + EPS :=
    add_pos_of_nonneg_of_pos hn EPS_pos
  have h1 : 1 ≤ l2norm v + EPS := by
    have := EPS_pos
    linarith
  rw [l2norm_l2normalize]
  have hrw : l2norm v / (l2norm v + EPS) - 1 = -(EPS / (l2norm v + EPS)) := by
    field_simp
  rw [hrw, abs_neg, abs_of_nonneg (div_nonneg EPS_pos.le hc.le)]
  rw [div_le_iff₀ hc]
  exact le_mul_of_one_le_right EPS_pos.le h1

/-- C5 (amended): whenever `embed_text` succeeds, the returned value has
norm `n / (n + 1e-8)` where `n` is the norm of the raw pooled vector; this
is within `1e-8` of `1` provided `n` is at least `1 - 1e-8` (in particular
for the unit-norm vectors a well-behaved provider returns).  For raw
vectors of small norm the bound fails, see the counterexample, so the
proviso on the raw norm is the amendment. -/
theorem embed_text_unit_norm (r : FEResult) (w : NDVec)
    (hw : embed_text r = some w) (hn : 1 - EPS ≤ rawNorm r) :
    |ndNorm w - 1| ≤ EPS := by
  cases r with
  | flat v =>
    cases v with
    | nil => exact absurd hw (by simp [embed_text])
    | cons x xs =>
      have hw2 : w = NDVec.one (l2normalize (x :: xs)) := by
        rw [embed_text] at hw
        injection hw with h2
        exact h2.symm
      rw [hw2]
      rw [rawNorm] at hn
      exact normalized_close (x :: xs) hn
  | nested vs =>
    cases vs with
    | nil => exact absurd hw (by simp [embed_text])
    | cons w0 ws =>
      rw [embed_text] at hw
      by_cases hrect : ((w0 :: ws).all fun u => u.length = w0.length) = true
      · rw [if_pos hrect] at hw
        have hw2 : w = NDVec.one (l2normalize (npMean (w0 :: ws))) := by
          injection hw with h2
          exact h2.symm
        rw [hw2]
        rw [rawNorm] at hn
        exact normalized_close (npMean (w0 :: ws)) hn
      · rw [if_neg hrect] at hw
        exact absurd hw (by simp)
  | arr1 v =>
    have hw2 : w = NDVec.one (l2normalize v) := by
      rw [embed_text] at hw
      injection hw with h2
      exact h2.symm
    rw [hw2]
    rw [rawNorm] at hn
    exact normalized_close v hn
  | arr2 m =>
    have hw2 : w = NDVec.two (frobNormalize m) := by
      rw [embed_text] at hw
      injection hw with h2
      exact h2.symm
    have hflat : (frobNormalize m).flatten = l2normalize m.flatten := by
      unfold frobNormalize l2normalize
      exact (List.map_flatten _ m).symm
    rw [hw2, ndNorm, hflat]
    rw [rawNorm] at hn
    exact normalized_close m.flatten hn

/-- Witness for C5 (amended) at the provider response `[1.0]`. -/
theorem embed_text_unit_norm_witness :
    embed_text (.flat [1]) = some (.one (l2normalize [1])) ∧
      1 - EPS ≤ rawNorm (.flat [1]) ∧
      |ndNorm (.one (l2normalize [1])) - 1| ≤ EPS := by
  have hraw : rawNorm (.flat [1]) = 1 := by
    simp [rawNorm, l2norm, sumSq]
  have hn : 1 - EPS ≤ rawNorm (.flat [1]) := by
    rw [hraw]
    have := EPS_pos
    linarith
  exact ⟨rfl, hn, embed_text_unit_norm (.flat [1]) (.one (l2normalize [1]))
    rfl hn⟩

/-- Counterexample to C5 as stated: the provider can return the zero
vector (a malformed but possible response), `embed_text` succeeds on it,
and the returned vector has norm `0`, which is not within `1e-8` of `1`. -/
theorem embed_text_unit_norm_counterexample :
    embed_text (.flat [0]) = some (.one (l2normalize [0])) ∧
      EPS < |ndNorm (.one (l2normalize [0])) - 1| := by
  constructor
  · rfl
  · have h0 : l2normalize [0] = [0] := by
      simp [l2normalize]
    rw [h0]
    have hnd : ndNorm (.one [0]) = 0 := by
      simp [ndNorm, l2norm, sumSq]
    rw [hnd, zero_sub, abs_neg, abs_one]
    norm_num [EPS]

/-- C4 (amended): mean pooling applies exactly to a multi-vector response
decoded as a Python list of (equal-length) vectors: `embed_text` then
reduces it by the element-wise arithmetic mean across the sequence before
normalisation, and `npMean` is that element-wise mean.  A multi-vector
response arriving as a two-dimensional array (the `isinstance(result,
list)` test fails) is normalised whole, without pooling, see the
counterexample. -/
theorem embed_text_mean_pooling (w0 : List ℝ) (ws : List (List ℝ))
    (hrect : ((w0 :: ws).all fun u => u.length = w0.length) = true) :
    embed_text (.nested (w0 :: ws))
        = some (.one (l2normalize (npMean (w0 :: ws)))) ∧
      ∀ j, j < w0.length → (npMean (w0 :: ws)).getD j 0
        = (((w0 :: ws).map fun u => u.getD j 0).sum)
            / (((w0 :: ws).length : ℕ) : ℝ) := by
  constructor
  · rw [embed_text, if_pos hrect]
  · intro j hj
    rw [npMean]
    rw [List.getD_eq_getElem?_getD, List.getElem?_map,
      List.getElem?_range hj]
    rfl

/-- Witness for C4 (amended) at the two-row response `[[1,0],[0,1]]`. -/
theorem embed_text_mean_pooling_witness :
    ((([(1 : ℝ), 0] : List ℝ) :: [[(0 : ℝ), 1]]).all
        fun u => u.length = ([(1 : ℝ), 0] : List ℝ).length) = true ∧
      (embed_text (.nested ([(1 : ℝ), 0] :: [[(0 : ℝ), 1]]))
          = some (.one (l2normalize (npMean ([(1 : ℝ), 0] :: [[(0 : ℝ), 1]])))) ∧
        ∀ j, j < ([(1 : ℝ), 0] : List ℝ).length →
          (npMean ([(1 : ℝ), 0] :: [[(0 : ℝ), 1]])).getD j 0
            = ((([(1 : ℝ), 0] :: [[(0 : ℝ), 1]]).map fun u => u.getD j 0).sum)
                / ((([(1 : ℝ), 0] :: [[(0 : ℝ), 1]]).length : ℕ) : ℝ)) :=
  ⟨by decide, embed_text_mean_pooling [(1 : ℝ), 0] [[(0 : ℝ), 1]] (by decide)⟩

/-- Counterexample to C4 as stated: a multi-vector response delivered as a
two-dimensional numpy array (the documented return type of the inference
call) is not reduced by mean pooling — the whole matrix is normalised and
returned — so the reduction does not happen for every shape of
multi-vector response. -/
theorem embed_text_mean_pooling_counterexample :
    embed_text (.arr2 [[1], [2]]) = some (.two (frobNormalize [[1], [2]])) ∧
      embed_text (.arr2 [[1], [2]])
        ≠ some (.one (l2normalize (npMean [[1], [2]]))) := by
  constructor
  · rfl
  · intro h
    rw [embed_text] at h
    injection h with h2
    exact NDVec.noConfusion h2

/-- C9: an empty provider response (an empty list) makes `result[0]` raise
`IndexError` inside the `try` block, which the `except` handler turns into
the failure signal `None`; nothing propagates to the caller. -/
theorem embed_text_empty_none :
    embed_text (.nested []) = none ∧ embed_text (.flat []) = none :=
  ⟨rfl, rfl⟩

/-- Consecutive groups `chunks[i:i+batch_size]` for
`i in range(0, total, batch_size)`.  A zero group size degenerates to a
single group holding the whole list; the Python `range` call would raise
for a zero step, so only positive sizes model the source (the default is
10). -/
def splitBatches {α : Type} : ℕ → List α → List (List α)
  | _, [] => []
  | 0, x :: xs => [x :: xs]
  | b + 1, x :: xs =>
      ((x :: xs).take (b + 1)) :: splitBatches (b + 1) ((x :: xs).drop (b + 1))
termination_by _ l => l.length
decreasing_by simp [List.length_drop]; omega

theorem flatten_splitBatches {α : Type} (b : ℕ) (l : List α) :
    (splitBatches b l).flatten = l := by
  induction b, l using splitBatches.induct with
  | case1 _ => rw [splitBatches]; rfl
  | case2 x xs => rw [splitBatches]; simp
  | case3 b x xs ih =>
    rw [splitBatches]
    rw [List.flatten_cons, ih, List.take_append_drop]

/-- The per-chunk body of the batch loop in
`EmbeddingEngine.embed_chunks_batch`: embed the chunk text via the engine
(`engine` is `embed_text` composed with the provider call); on success
assign the embedding and count it, on failure leave the chunk unchanged. -/
def embedStep (engine : List Char → Option NDVec)
    (acc : List Chunk × ℕ) (c : Chunk) : List Chunk × ℕ :=
  match engine c.text with
  | some v => (acc.1 ++ [{ c with embedding := some v }], acc.2 + 1)
  | none => (acc.1 ++ [c], acc.2)

/-- `EmbeddingEngine.embed_chunks_batch(chunks, batch_size)`: process the
chunks in consecutive groups (the inter-group pacing delay is pure I/O and
has no functional effect), returning the updated chunk sequence together
with the success count (the source mutates the chunks in place and
returns the count). -/
def embed_chunks_batch (engine : List Char → Option NDVec)
    (chunks : List Chunk) (batchSize : ℕ) : List Chunk × ℕ :=
  (splitBatches batchSize chunks).foldl
    (fun st batch => batch.foldl (embedStep engine) st) ([], 0)

/-- The metadata of a chunk: everything except the embedding field. -/
def projChunk (c : Chunk) : List Char × String × ℕ × ℕ :=
  (c.text, c.source_label, c.page_number, c.chunk_index)

theorem embedStep_proj (engine : List Char → Option NDVec)
    (acc : List Chunk × ℕ) (c : Chunk) :
    ((embedStep engine acc c).1).map projChunk
      = acc.1.map projChunk ++ [projChunk c] := by
  cases hengine : engine c.text <;> simp [embedStep, hengine, projChunk]

theorem foldl_embedStep_proj (engine : List Char → Option NDVec)
    (batch : List Chunk) : ∀ acc : List Chunk × ℕ,
    ((batch.foldl (embedStep engine) acc).1).map projChunk
      = acc.1.map projChunk ++ batch.map projChunk := by
  induction batch with
  | nil => intro acc; simp
  | cons c cs ih =>
    intro acc
    rw [List.foldl_cons, ih, embedStep_proj]
    simp

theorem foldl_batches_proj (engine : List Char → Option NDVec)
    (batches : List (List Chunk)) : ∀ acc : List Chunk × ℕ,
    (((batches.foldl (fun st batch => batch.foldl (embedStep engine) st)
        acc)).1).map projChunk
      = acc.1.map projChunk ++ (batches.flatten).map projChunk := by
  induction batches with
  | nil => intro acc; simp
  | cons batch bs ih =>
    intro acc
    rw [List.foldl_cons, ih, foldl_embedStep_proj]
    simp

/-- C10: for every engine, chunk sequence and batch size,
`embed_chunks_batch` changes at most the embedding field: the text, source
label, page number and chunk index of every chunk, and the order and
length of the sequence, are unchanged. -/
theorem embed_chunks_batch_frame (engine : List Char → Option NDVec)
    (chunks : List Chunk) (batchSize : ℕ) :
    ((embed_chunks_batch engine chunks batchSize).1).map projChunk
      = chunks.map projChunk := by
  rw [embed_chunks_batch, foldl_batches_proj, flatten_splitBatches]
  rfl

/-- A document source `{url, label}` from the `DOCUMENTS` configuration. -/
structure DocSource where
  url : String
  label : String

/-- Python dictionary assignment `stats[label] = v`: overwrite in place if
the key exists (dictionaries preserve insertion order), else append. -/
def dictInsert (m : List (String × ℕ)) (k : String) (v : ℕ) :
    List (String × ℕ) :=
  if m.any (fun p => p.1 = k)
  then m.map (fun p => if p.1 = k then (k, v) else p)
  else m ++ [(k, v)]

/-- The per-document page loop of `DocumentProcessor.process_documents`:
chunk each page with a running chunk index scoped to the document. -/
def chunkPages (label : String) (pages : List (List Char × ℕ)) :
    List Chunk :=
  (pages.foldl
    (fun acc pg =>
      let pcs := chunk_text pg.1 pg.2 label acc.2
      (acc.1 ++ pcs, acc.2 + pcs.length))
    (([] : List Chunk), 0)).1

/-- One iteration of `DocumentProcessor.process_documents`: `fetch` models
`download_pdf` (returning `None` on download failure; an empty byte string
is also falsy in the `if not pdf_bytes` test) and `parse` models
`parse_pdf` (which catches its own exceptions and returns the page list
accumulated so far, so a parse failure surfaces as an empty page list).
State is the accumulated chunk list (`self.chunks`) and the stats
dictionary. -/
def processOne (fetch : DocSource → Option (List ℕ))
    (parse : List ℕ → List (List Char × ℕ))
    (st : List Chunk × List (String × ℕ)) (d : DocSource) :
    List Chunk × List (String × ℕ) :=
  match fetch d with
  | none => (st.1, dictInsert st.2 d.label 0)
  | some bs =>
    if bs = [] then (st.1, dictInsert st.2 d.label 0)
    else
      let pages := parse bs
      if pages = [] then (st.1, dictInsert st.2 d.label 0)
      else
        let dc := chunkPages d.label pages
        (st.1 ++ dc, dictInsert st.2 d.label dc.length)

/-- The document loop of `process_documents` started from an arbitrary
state. -/
def processFrom (fetch : DocSource → Option (List ℕ))
    (parse : List ℕ → List (List Char × ℕ))
    (st : List Chunk × List (String × ℕ)) (docs : List DocSource) :
    List Chunk × List (String × ℕ) :=
  docs.foldl (processOne fetch parse) st

/-- `DocumentProcessor.process_documents(documents)`, returning the final
accumulated chunk sequence and the per-source chunk counts. -/
def process_documents (fetch : DocSource → Option (List ℕ))
    (parse : List ℕ → List (List Char × ℕ)) (docs : List DocSource) :
    List Chunk × List (String × ℕ) :=
  processFrom fetch parse ([], []) docs

/-- C7: when fetching or parsing one source fails (download returns
nothing or empty bytes, or parsing yields no pages), `process_documents`
records a chunk count of 0 for that source, adds no chunks for it, and
processes every remaining source exactly as it would have from that
state: a single source failure never aborts ingestion of the others. -/
theorem process_documents_isolates_failure
    (fetch : DocSource → Option (List ℕ))
    (parse : List ℕ → List (List Char × ℕ))
    (pre post : List DocSource) (d : DocSource)
    (hfail : fetch d = none ∨ fetch d = some [] ∨
      parse ((fetch d).getD []) = []) :
    process_documents fetch parse (pre ++ d :: post)
      = processFrom fetch parse
          ((process_documents fetch parse pre).1,
            dictInsert (process_documents fetch parse pre).2 d.label 0)
          post := by
  unfold process_documents processFrom
  rw [List.foldl_append, List.foldl_cons]
  congr 1
  cases hfd : fetch d with
  | none => rw [processOne, hfd]
  | some bs =>
    rcases hfail with h | h | h
    · rw [hfd] at h; exact absurd h (by simp)
    · rw [hfd] at h
      injection h with h2
      subst h2
      rw [processOne, hfd]
      rfl
    · rw [hfd] at h
      simp only [Option.getD_some] at h
      rw [processOne, hfd]
      by_cases hbs : bs = []
      · subst hbs; rfl
      · simp only [hbs, if_false, h, if_true]

/-- Witness for C7: two healthy sources around one whose download fails. -/
theorem process_documents_isolates_failure_witness :
    ((fun s : DocSource => if s.label = "B" then none else some [7])
        (DocSource.mk "v" "B") = none ∨
      (fun s : DocSource => if s.label = "B" then none else some [7])
        (DocSource.mk "v" "B") = some [] ∨
      (fun _ : List ℕ => [([('h' : Char), 'i'], 1)])
        (((fun s : DocSource => if s.label = "B" then none else some [7])
          (DocSource.mk "v" "B")).getD []) = []) ∧
      process_documents
          (fun s : DocSource => if s.label = "B" then none else some [7])
          (fun _ : List ℕ => [([('h' : Char), 'i'], 1)])
          ([DocSource.mk "u" "A"] ++ DocSource.mk "v" "B"
            :: [DocSource.mk "w" "C"])
        = processFrom
            (fun s : DocSource => if s.label = "B" then none else some [7])
            (fun _ : List ℕ => [([('h' : Char), 'i'], 1)])
            ((process_documents
                (fun s : DocSource => if s.label = "B" then none else some [7])
                (fun _ : List ℕ => [([('h' : Char), 'i'], 1)])
                [DocSource.mk "u" "A"]).1,
              dictInsert
                (process_documents
                  (fun s : DocSource => if s.label = "B" then none else some [7])
                  (fun _ : List ℕ => [([('h' : Char), 'i'], 1)])
                  [DocSource.mk "u" "A"]).2 "B" 0)
            [DocSource.mk "w" "C"] :=
  ⟨Or.inl (by decide),
    process_documents_isolates_failure
      (fun s : DocSource => if s.label = "B" then none else some [7])
      (fun _ : List ℕ => [([('h' : Char), 'i'], 1)])
      [DocSource.mk "u" "A"] [DocSource.mk "w" "C"]
      (DocSource.mk "v" "B") (Or.inl (by decide))⟩

/-- `SwissRAG.query(question)`: `retr` is the retriever state (`None`
before initialisation, otherwise the stored chunk sequence of the index),
`qEmbOf` is the embedding-engine call used for the query, `sim` the
external similarity computation, `fmtScore` the float formatting
`{score:.3f}` (floating-point text formatting kept abstract), and `llm`
the external chat-completion call on the built user prompt (the system
instruction, temperature and token limit are fixed constants attached to
that call); `Except.error` is the caught provider exception. -/
def query (retr : Option (List Chunk)) (qEmbOf : List Char → Option NDVec)
    (sim : NDVec → NDVec → ℚ) (fmtScore : ℚ → String)
    (llm : String → Except String String) (question : List Char) :
    String × String :=
  match retr with
  | none => ("Error: System not initialized", "")
  | some index =>
    if strip question = [] then ("Please enter a question.", "")
    else
      match retrieve index (qEmbOf question) sim TOP_K with
      | [] => ("Error: Could not retrieve relevant context.", "")
      | r :: rs =>
        let retrieved := r :: rs
        let contextStr := String.intercalate "\n\n"
          (retrieved.enum.map fun p =>
            "[" ++ toString (p.1 + 1) ++ "] " ++ p.2.1.source_label
              ++ " (Seite/Page " ++ toString p.2.1.page_number ++ "):\n"
              ++ String.mk p.2.1.text)
        let retrievedInfo := String.intercalate "\n\n"
          (retrieved.enum.map fun p =>
            "**Chunk " ++ toString (p.1 + 1) ++ "** (Similarity: "
              ++ fmtScore p.2.2 ++ ")\nSource: " ++ p.2.1.source_label
              ++ " | Page: " ++ toString p.2.1.page_number ++ "\n```\n"
              ++ String.mk (p.2.1.text.take 300) ++ "...\n```")
        let userPrompt := "Kontext aus Schweizer Dokumenten:\n\n"
          ++ contextStr ++ "\n\nFrage: " ++ String.mk question
          ++ "\n\nBitte beantworte die Frage basierend auf dem obigen Kontext."
        match llm userPrompt with
        | .ok answer => (answer, retrievedInfo)
        | .error e => ("Error: LLM call failed: " ++ e, retrievedInfo)

/-- C8: a blank or whitespace-only question makes `query` return the
prompt-to-retry message with empty context, for every retriever state and
every retrieval, similarity, formatting and language-model collaborator:
the result does not depend on those oracles, so neither retrieval nor the
language model is invoked. -/
theorem query_blank (index : List Chunk) (qEmbOf : List Char → Option NDVec)
    (sim : NDVec → NDVec → ℚ) (fmtScore : ℚ → String)
    (llm : String → Except String String) (question : List Char)
    (hblank : strip question = []) :
    query (some index) qEmbOf sim fmtScore llm question
      = ("Please enter a question.", "") := by
  rw [query, if_pos hblank]

/-- Witness for C8 at the whitespace-only question two spaces long. -/
theorem query_blank_witness :
    strip [(' ' : Char), ' '] = [] ∧
      query (some []) (fun _ => none) (fun _ _ => 0) (fun _ => "")
          (fun _ => Except.ok "") [(' ' : Char), ' ']
        = ("Please enter a question.", "") :=
  ⟨by decide, query_blank [] (fun _ => none) (fun _ _ => 0) (fun _ => "")
    (fun _ => Except.ok "") [(' ' : Char), ' '] (by decide)⟩

end SwissRAG
